import Mathlib

set_option linter.unusedVariables false
set_option linter.unnecessarySeqFocus false

/-!
# Verification of the `warkov` variable-order Markov chain library

Shallow embedding of `src/warkov/src/lib.rs`:

* `OSym T` models `Option<T>` used for boundary-augmented symbols
  (`OSym.bot` is Rust's `None`, the boundary marker ⟂).
* `BMap K` models `BTreeMap<K, usize>` as an association list kept sorted
  by the strict order `lt`; `bump` models `*map.entry(k).or_default() += 1`.
* `Stages T` models the `HashMap<Vec<Option<T>>, (usize, BTreeMap<..>)>`
  field `stages`; it is only ever consulted by key lookup, so it is
  represented as a function from keys to optional entries.
* Randomness (`R: Rng`) is modelled by an explicit generator function
  `RngF R`: `g bound rng` returns the value of `rng.gen_range(0, bound)`
  together with the advanced generator state.  `gen_range(0, 0)` panics in
  the Rust `rand` crate; panics are modelled by `Option`/`GenResult.panicked`.
* The unbounded generation loop of `generate_max_look` is modelled with an
  explicit fuel parameter; exhausting fuel yields `GenResult.fuelOut`.
-/

namespace Warkov

/-- An optional symbol: the boundary marker (Rust `None`, written ⟂ in the
spec) or a real symbol (Rust `Some`). -/
inductive OSym (T : Type) where
  | bot
  | val (t : T)
deriving DecidableEq

instance {T : Type} : Inhabited (OSym T) := ⟨OSym.bot⟩

/-- `BTreeMap<K, usize>` as an association list sorted by key. -/
abbrev BMap (K : Type) := List (K × Nat)

/-- Sum of all counts held in a `BMap`. -/
def sumCounts {K : Type} (m : BMap K) : Nat := (m.map Prod.snd).sum

/-- The count recorded for key `k` (sum over entries carrying `k`; maps
built by `bump` never duplicate a key, so this is the stored count). -/
def countIn {K : Type} [DecidableEq K] (m : BMap K) (k : K) : Nat :=
  sumCounts (m.filter (fun e => decide (e.1 = k)))

/-- `*map.entry(k).or_default() += 1` on a `BTreeMap` represented as an
association list sorted by the strict order `lt`: insert `k ↦ 1` at its
sorted position, or increment the existing count of `k`. -/
def bump {K : Type} [DecidableEq K] (lt : K → K → Bool) (k : K) : BMap K → BMap K
  | [] => [(k, 1)]
  | (k', v) :: rest =>
    if lt k k' then (k, 1) :: (k', v) :: rest
    else if k = k' then (k', v + 1) :: rest
    else (k', v) :: bump lt k rest

/-- The strict key order of `BTreeMap<Option<T>, usize>`: the boundary
marker sorts strictly before every real symbol, real symbols compare by
the symbol order (Rust's derived `Ord` on `Option<T>`). -/
def oLt {T : Type} [LinearOrder T] : OSym T → OSym T → Bool
  | .bot, .bot => false
  | .bot, .val _ => true
  | .val _, .bot => false
  | .val a, .val b => decide (a < b)

/-- The strict key order of `BTreeMap<T, usize>`. -/
def tLt {T : Type} [LinearOrder T] (a b : T) : Bool := decide (a < b)

/-- The `stages` table: from context (vector of optional symbols) to
(total occurrence count, per-next-symbol counts). -/
def Stages (T : Type) := List (OSym T) → Option (Nat × BMap (OSym T))

/-- The state of `MarkovChain<T, R>`: configured maximum order `size`,
random generator state `rng`, context table `stages` and the unigram
fallback table `alphabet`. -/
structure MarkovChain (T : Type) (R : Type) where
  size : Nat
  rng : R
  stages : Stages T
  alphabet : Nat × BMap T

/-- `MarkovChain::new_with_rng(size, rng)`: `assert!(size > 0)` (modelled
by `none` on violation), then empty tables. -/
def new_with_rng {T R : Type} (size : Nat) (rng : R) : Option (MarkovChain T R) :=
  if 0 < size then some ⟨size, rng, fun _ => none, (0, [])⟩ else none

/-- One entry update of `record_occurance`'s loop body: fetch (or default)
the entry of `stage`, increment its total, and bump the count of `next`. -/
def bumpStage {T : Type} [LinearOrder T] (st : Stages T) (key : List (OSym T))
    (next : OSym T) : Stages T :=
  let e := (st key).getD (0, [])
  Function.update st key (some (e.1 + 1, bump oLt next e.2))

/-- `record_occurance(stage, next)`: record `next` under `stage`, then keep
dropping the first element of `stage` and recording again, until empty. -/
def record_occurance {T : Type} [LinearOrder T] :
    Stages T → List (OSym T) → OSym T → Stages T
  | st, [], _ => st
  | st, k :: rest, next => record_occurance (bumpStage st (k :: rest) next) rest next

/-- The inner loop of `train` at one position `idx`: for every
`len in 1..=size` with `len <= idx`, record `aug[idx]` after the context
slice `aug[idx-len..idx]`. -/
def posLoop {T : Type} [LinearOrder T] (st : Stages T) (aug : List (OSym T))
    (size idx : Nat) : Stages T :=
  (List.range' 1 size).foldl
    (fun st len =>
      if len ≤ idx then
        record_occurance st ((aug.drop (idx - len)).take len) (aug.getD idx OSym.bot)
      else st)
    st

/-- `MarkovChain::train(term)`: add the sequence to the unigram fallback
table, build the boundary-augmented sequence ⟂,s₁,…,sₙ,⟂, and run the
position × order recording loops. -/
def train {T : Type} [LinearOrder T] {R : Type} (mc : MarkovChain T R)
    (term : List T) : MarkovChain T R :=
  let alpha : Nat × BMap T :=
    (mc.alphabet.1 + term.length, term.foldl (fun m t => bump tLt t m) mc.alphabet.2)
  let aug : List (OSym T) := OSym.bot :: (term.map OSym.val ++ [OSym.bot])
  let st :=
    (List.range' 1 (aug.length - 1)).foldl (fun st idx => posLoop st aug mc.size idx)
      mc.stages
  { mc with stages := st, alphabet := alpha }

/-! ## Generation -/

/-- The random source: `g bound rng` is `rng.gen_range(0, bound)` paired
with the advanced generator state. -/
def RngF (R : Type) := Nat → R → Nat × R

/-- The scanning loop of `weighted_choice`: visit the entries in list
order (key order, by the sortedness of `BMap`s), remembering the last key
seen, and return the first key whose cumulative interval contains `r`;
if the list is exhausted, return the last key seen. -/
def wcGo {K : Type} (r : Nat) : Nat → K → BMap K → K
  | _, last, [] => last
  | curr, _, (k, v) :: rest =>
    if curr ≤ r ∧ r < curr + v then k else wcGo r (curr + v) k rest

/-- `weighted_choice(rng, options)`: draw `gen_range(0, total)` — which
panics (`none`) when the total is zero — and scan for the chosen key. -/
def weighted_choice {K R : Type} [Inhabited K] (g : RngF R) (rng : R)
    (options : Nat × BMap K) : Option (K × R) :=
  if options.1 = 0 then none
  else
    let p := g options.1 rng
    some (wcGo p.1 0 default options.2, p.2)

/-- The inner lookup loop of `generate_max_look`: look `curr` up in the
context table; when absent and `curr` has more than one element, drop the
first element and retry; when absent and `curr` is a single element,
signal the fallback (`none`).  Returns the (possibly shrunk) window
together with the entry found. -/
def backoff {T : Type} (st : Stages T) :
    List (OSym T) → List (OSym T) × Option (Nat × BMap (OSym T))
  | [] => ([], none)
  | c :: rest =>
    match st (c :: rest) with
    | some stats => (c :: rest, some stats)
    | none => if rest.isEmpty then (c :: rest, none) else backoff st rest

/-- `while curr.len() > n { curr.remove(0); }` -/
def shrinkTo {K : Type} (n : Nat) (l : List K) : List K :=
  if h : n < l.length then shrinkTo n l.tail else l
termination_by l.length
decreasing_by simp only [List.length_tail]; omega

/-- Outcome of a `generate_max_look` run: normal return, a panic inside
`weighted_choice` (`gen_range` on an empty range), or fuel exhaustion of
the model's loop counter. -/
inductive GenResult (T : Type) where
  | ok (res : List T)
  | panicked
  | fuelOut (res : List T)
deriving DecidableEq

/-- The main loop of `generate_max_look`: look up the window with backoff,
sample the next optional symbol from the entry found (or a real symbol
from the fallback table), stop on the boundary marker, otherwise push the
symbol, re-append it to the window and shrink the window to
`maxlook` elements. -/
def genLoop {T R : Type} [LinearOrder T] [Inhabited T] (g : RngF R) (st : Stages T)
    (alpha : Nat × BMap T) (maxlook : Nat) :
    Nat → List (OSym T) → List T → R → GenResult T × R
  | 0, _, result, rng => (.fuelOut result, rng)
  | fuel + 1, curr, result, rng =>
    match backoff st curr with
    | (curr', some stats) =>
      match weighted_choice g rng stats with
      | none => (.panicked, rng)
      | some (next, rng') =>
        match next with
        | .bot => (.ok result, rng')
        | .val t =>
          genLoop g st alpha maxlook fuel (shrinkTo maxlook (curr' ++ [OSym.val t]))
            (result ++ [t]) rng'
    | (curr', none) =>
      match weighted_choice g rng alpha with
      | none => (.panicked, rng)
      | some (t, rng') =>
        genLoop g st alpha maxlook fuel (shrinkTo maxlook (curr' ++ [OSym.val t]))
          (result ++ [t]) rng'

/-- `generate_max_look(max_lookbehind)`:
`assert!(max_lookbehind >= 1 && max_lookbehind <= self.size)` (modelled by
`none` on violation), then run the loop from the window `[⟂]`. -/
def generate_max_look {T R : Type} [LinearOrder T] [Inhabited T] (g : RngF R)
    (mc : MarkovChain T R) (maxlook fuel : Nat) : Option (GenResult T × R) :=
  if 1 ≤ maxlook ∧ maxlook ≤ mc.size then
    some (genLoop g mc.stages mc.alphabet maxlook fuel [OSym.bot] [] mc.rng)
  else none

/-- `generate()` simply calls `generate_max_look(self.size)`. -/
def generate {T R : Type} [LinearOrder T] [Inhabited T] (g : RngF R)
    (mc : MarkovChain T R) (fuel : Nat) : Option (GenResult T × R) :=
  generate_max_look g mc mc.size fuel

/-- Repeatedly call `generate`, threading the advanced random state back
into the model, and collect the outcomes. -/
def genCalls {T R : Type} [LinearOrder T] [Inhabited T] (g : RngF R) :
    MarkovChain T R → Nat → Nat → Option (List (GenResult T))
  | _, _, 0 => some []
  | mc, fuel, n + 1 =>
    match generate g mc fuel with
    | none => none
    | some (res, rng') =>
      match genCalls g { mc with rng := rng' } fuel n with
      | none => none
      | some rest => some (res :: rest)

/-! ## Observation functions used by the statements -/

/-- The windows that `backoff` looks up in the context table, in order. -/
def backoffLookups {T : Type} (st : Stages T) :
    List (OSym T) → List (List (OSym T))
  | [] => []
  | c :: rest =>
    match st (c :: rest) with
    | some _ => [c :: rest]
    | none =>
      if rest.isEmpty then [c :: rest] else (c :: rest) :: backoffLookups st rest

/-- The successive windows handed to `backoff` by the iterations of the
`genLoop` run (same control flow as `genLoop`, observed windows only). -/
def genWindows {T R : Type} [LinearOrder T] [Inhabited T] (g : RngF R) (st : Stages T)
    (alpha : Nat × BMap T) (maxlook : Nat) :
    Nat → List (OSym T) → R → List (List (OSym T))
  | 0, _, _ => []
  | fuel + 1, curr, rng =>
    curr ::
      (match backoff st curr with
      | (curr', some stats) =>
        match weighted_choice g rng stats with
        | none => []
        | some (next, rng') =>
          match next with
          | .bot => []
          | .val t =>
            genWindows g st alpha maxlook fuel (shrinkTo maxlook (curr' ++ [OSym.val t])) rng'
      | (curr', none) =>
        match weighted_choice g rng alpha with
        | none => []
        | some (t, rng') =>
          genWindows g st alpha maxlook fuel (shrinkTo maxlook (curr' ++ [OSym.val t])) rng')

/-- Stored total of the entry at context `c` (0 when absent). -/
def totalOf {T : Type} (st : Stages T) (c : List (OSym T)) : Nat :=
  ((st c).getD (0, [])).1

/-- Stored count of `k` in the entry at context `c` (0 when absent). -/
def countOf {T : Type} [LinearOrder T] (st : Stages T) (c : List (OSym T))
    (k : OSym T) : Nat :=
  countIn ((st c).getD (0, [])).2 k

/-! ## Helper lemmas -/

theorem sumCounts_append {K : Type} (a b : BMap K) :
    sumCounts (a ++ b) = sumCounts a + sumCounts b := by
  simp [sumCounts]

theorem sumCounts_bump {K : Type} [DecidableEq K] (lt : K → K → Bool) (k : K) :
    ∀ m : BMap K, sumCounts (bump lt k m) = sumCounts m + 1
  | [] => by simp [bump, sumCounts]
  | (k', v) :: rest => by
    simp only [bump]
    by_cases h1 : lt k k'
    · rw [if_pos h1]
      simp only [sumCounts, List.map_cons, List.sum_cons]
      omega
    · rw [if_neg h1]
      by_cases h2 : k = k'
      · rw [if_pos h2]
        simp only [sumCounts, List.map_cons, List.sum_cons]
        omega
      · rw [if_neg h2]
        have ih := sumCounts_bump lt k rest
        simp only [sumCounts, List.map_cons, List.sum_cons] at ih ⊢
        omega

theorem countIn_bump_self {K : Type} [DecidableEq K] (lt : K → K → Bool) (k : K) :
    ∀ m : BMap K, countIn (bump lt k m) k = countIn m k + 1
  | [] => by simp [bump, countIn, sumCounts]
  | (k', v) :: rest => by
    simp only [bump]
    by_cases h1 : lt k k'
    · rw [if_pos h1]
      by_cases h3 : k' = k <;>
        simp [countIn, List.filter_cons, h3, sumCounts] <;> omega
    · rw [if_neg h1]
      by_cases h2 : k = k'
      · rw [if_pos h2]
        simp [countIn, List.filter_cons, h2.symm, sumCounts]
        omega
      · rw [if_neg h2]
        have ih := countIn_bump_self lt k rest
        have h2' : ¬ (k' = k) := fun h => h2 h.symm
        simp [countIn, List.filter_cons, h2', sumCounts] at ih ⊢
        omega

theorem foldl_preserve {α β : Type} (P : α → Prop) (f : α → β → α)
    (hf : ∀ a b, P a → P (f a b)) :
    ∀ (L : List β) (a : α), P a → P (L.foldl f a)
  | [], a, ha => ha
  | x :: xs, a, ha => foldl_preserve P f hf xs (f a x) (hf a x ha)

theorem totalOf_bumpStage {T : Type} [LinearOrder T] (st : Stages T)
    (key c : List (OSym T)) (next : OSym T) :
    totalOf (bumpStage st key next) c =
      if c = key then totalOf st c + 1 else totalOf st c := by
  by_cases h : c = key
  · subst h
    simp [bumpStage, totalOf, Function.update_same]
  · simp [bumpStage, totalOf, Function.update_noteq h, h]

theorem countOf_bumpStage {T : Type} [LinearOrder T] (st : Stages T)
    (key c : List (OSym T)) (next : OSym T) :
    countOf (bumpStage st key next) c next =
      if c = key then countOf st c next + 1 else countOf st c next := by
  by_cases h : c = key
  · subst h
    simp [bumpStage, countOf, Function.update_same, countIn_bump_self]
  · simp [bumpStage, countOf, Function.update_noteq h, h]

theorem suffix_indicator_cons {T : Type} [LinearOrder T] (c : List (OSym T)) (k : OSym T)
    (rest : List (OSym T)) :
    (if c ≠ [] ∧ c <:+ k :: rest then (1 : Nat) else 0) =
      (if c = k :: rest then (1 : Nat) else 0) +
        (if c ≠ [] ∧ c <:+ rest then (1 : Nat) else 0) := by
  by_cases hc : c = []
  · subst hc; simp
  · by_cases heq : c = k :: rest
    · subst heq
      have hnot : ¬ (k :: rest <:+ rest) := by
        intro h
        have := h.length_le
        simp at this
      simp [hc, hnot, List.suffix_refl]
    · by_cases hsuf : c <:+ rest
      · simp [hc, heq, hsuf, List.suffix_cons_iff.mpr (Or.inr hsuf)]
      · have : ¬ (c <:+ k :: rest) := by
          intro h
          rcases List.suffix_cons_iff.mp h with h' | h'
          · exact heq h'
          · exact hsuf h'
        simp [hc, heq, hsuf, this]

theorem record_totalOf {T : Type} [LinearOrder T] :
    ∀ (s : List (OSym T)) (st : Stages T) (c : List (OSym T)) (next : OSym T),
      totalOf (record_occurance st s next) c =
        totalOf st c + (if c ≠ [] ∧ c <:+ s then 1 else 0)
  | [], st, c, next => by
    simp [record_occurance, List.suffix_nil]
  | k :: rest, st, c, next => by
    rw [record_occurance, record_totalOf rest, totalOf_bumpStage,
      suffix_indicator_cons]
    by_cases h : c = k :: rest <;> simp [h] <;> omega

theorem record_countOf {T : Type} [LinearOrder T] :
    ∀ (s : List (OSym T)) (st : Stages T) (c : List (OSym T)) (next : OSym T),
      countOf (record_occurance st s next) c next =
        countOf st c next + (if c ≠ [] ∧ c <:+ s then 1 else 0)
  | [], st, c, next => by
    simp [record_occurance, List.suffix_nil]
  | k :: rest, st, c, next => by
    rw [record_occurance, record_countOf rest, countOf_bumpStage,
      suffix_indicator_cons]
    by_cases h : c = k :: rest <;> simp [h] <;> omega

theorem slice_drop_suffix {α : Type} (aug : List α) (idx len k : Nat)
    (h1 : k ≤ len) (h2 : len ≤ idx) :
    ((aug.drop (idx - len)).take len).drop (len - k) = (aug.drop (idx - k)).take k := by
  rw [List.drop_take, List.drop_drop]
  have e1 : len - (len - k) = k := by omega
  have e2 : idx - len + (len - k) = idx - k := by omega
  rw [e1, e2]

theorem slice_length {α : Type} (aug : List α) (idx k : Nat)
    (hki : k ≤ idx) (hidx : idx < aug.length) :
    ((aug.drop (idx - k)).take k).length = k := by
  simp [List.length_take, List.length_drop]
  omega

theorem posLoop_totalOf {T : Type} [LinearOrder T] (st : Stages T)
    (aug : List (OSym T)) (idx k : Nat)
    (hk : 1 ≤ k) (hki : k ≤ idx) (hidx : idx < aug.length) :
    ∀ size : Nat,
      totalOf (posLoop st aug size idx) ((aug.drop (idx - k)).take k)
        = totalOf st ((aug.drop (idx - k)).take k)
          + (if k ≤ min size idx then min size idx - k + 1 else 0) := by
  intro size
  induction size with
  | zero =>
    have h0 : ¬ k ≤ min 0 idx := by omega
    simp [posLoop, h0]
    omega
  | succ n ih =>
    rw [posLoop, List.range'_concat, List.foldl_append]
    have e1 : 1 + 1 * n = n + 1 := by omega
    rw [e1]
    simp only [List.foldl_cons, List.foldl_nil]
    rw [show (List.range' 1 n).foldl
        (fun st len =>
          if len ≤ idx then
            record_occurance st ((aug.drop (idx - len)).take len) (aug.getD idx OSym.bot)
          else st) st = posLoop st aug n idx from rfl]
    by_cases hle : n + 1 ≤ idx
    · rw [if_pos hle, record_totalOf, ih]
      have hne : (aug.drop (idx - k)).take k ≠ [] := by
        intro h
        have := slice_length aug idx k hki hidx
        rw [h] at this
        simp at this
        omega
      by_cases hkn : k ≤ n + 1
      · have hsuf : (aug.drop (idx - k)).take k <:+ (aug.drop (idx - (n+1))).take (n+1) := by
          rw [← slice_drop_suffix aug idx (n+1) k hkn hle]
          exact List.drop_suffix _ _
        have hand : (aug.drop (idx - k)).take k ≠ [] ∧
            (aug.drop (idx - k)).take k <:+ (aug.drop (idx - (n+1))).take (n+1) :=
          ⟨hne, hsuf⟩
        rw [if_pos hand]
        split_ifs <;> omega
      · have hnand : ¬ ((aug.drop (idx - k)).take k ≠ [] ∧
            (aug.drop (idx - k)).take k <:+ (aug.drop (idx - (n+1))).take (n+1)) := by
          intro h
          have hlen := h.2.length_le
          rw [slice_length aug idx k hki hidx,
            slice_length aug idx (n+1) hle hidx] at hlen
          omega
        rw [if_neg hnand]
        split_ifs <;> omega
    · rw [if_neg hle, ih]
      have : min (n + 1) idx = min n idx := by omega
      rw [this]

theorem wcGo_spec {K : Type} [Inhabited K] :
    ∀ (l : BMap K) (r curr : Nat) (last : K),
      curr ≤ r → r < curr + sumCounts l →
      ∃ i, ∃ hi : i < l.length,
        wcGo r curr last l = l[i].1
        ∧ curr + sumCounts (l.take i) ≤ r
        ∧ r < curr + sumCounts (l.take i) + l[i].2
  | [], r, curr, last, h1, h2 => by
    simp [sumCounts] at h2
    omega
  | (k, v) :: rest, r, curr, last, h1, h2 => by
    by_cases h : r < curr + v
    · refine ⟨0, by simp, ?_, ?_, ?_⟩
      · simp [wcGo, h1, h]
      · simp [sumCounts]
        exact h1
      · simp [sumCounts]
        omega
    · have h2' : r < curr + v + sumCounts rest := by
        simp only [sumCounts, List.map_cons, List.sum_cons] at h2 ⊢
        omega
      obtain ⟨i, hi, heq, hlo, hhi⟩ := wcGo_spec rest r (curr + v) k (by omega) h2'
      have hc : ¬ (curr ≤ r ∧ r < curr + v) := fun hc => absurd hc.2 h
      refine ⟨i + 1, by simpa using Nat.succ_lt_succ hi, ?_, ?_, ?_⟩
      · rw [wcGo, if_neg hc]
        simpa using heq
      · simp only [List.take_succ_cons, sumCounts, List.map_cons, List.sum_cons]
        simp only [sumCounts] at hlo
        omega
      · simp only [List.take_succ_cons, sumCounts, List.map_cons, List.sum_cons,
          List.getElem_cons_succ]
        simp only [sumCounts] at hhi
        omega

theorem wcGo_last {K : Type} [Inhabited K] :
    ∀ (l : BMap K) (r curr : Nat) (last : K) (h : l ≠ []),
      curr + sumCounts l ≤ r → wcGo r curr last l = (l.getLast h).1
  | [], _, _, _, h, _ => absurd rfl h
  | (k, v) :: rest, r, curr, last, h, hle => by
    have hc : ¬ (curr ≤ r ∧ r < curr + v) := by
      simp only [sumCounts, List.map_cons, List.sum_cons] at hle
      intro hc
      omega
    rw [wcGo, if_neg hc]
    cases rest with
    | nil => simp [wcGo]
    | cons a as =>
      have hle' : curr + v + sumCounts (a :: as) ≤ r := by
        simp only [sumCounts, List.map_cons, List.sum_cons] at hle ⊢
        omega
      rw [wcGo_last (a :: as) r (curr + v) k (by simp) hle']
      simp [List.getLast_cons]

theorem sumCounts_take_mono {K : Type} (l : BMap K) {a b : Nat} (h : a ≤ b) :
    sumCounts (l.take a) ≤ sumCounts (l.take b) := by
  have e : l.take b = l.take a ++ (l.drop a).take (b - a) := by
    rw [← List.take_add]
    congr 1
    omega
  rw [e, sumCounts_append]
  omega

theorem sumCounts_take_succ {K : Type} (l : BMap K) (j : Nat) (hj : j < l.length) :
    sumCounts (l.take (j + 1)) = sumCounts (l.take j) + l[j].2 := by
  have hj' : j < (l.map Prod.snd).length := by simpa using hj
  simp only [sumCounts, List.map_take]
  rw [List.sum_take_succ _ j hj']
  simp

theorem wc_unique {K : Type} (l : BMap K) (r i j : Nat)
    (hi : i < l.length) (hj : j < l.length)
    (h1 : sumCounts (l.take i) ≤ r) (h2 : r < sumCounts (l.take i) + l[i].2)
    (h3 : sumCounts (l.take j) ≤ r) (h4 : r < sumCounts (l.take j) + l[j].2) :
    j = i := by
  rcases Nat.lt_trichotomy j i with h | h | h
  · have e1 := sumCounts_take_succ l j hj
    have e2 := sumCounts_take_mono l (show j + 1 ≤ i by omega)
    omega
  · exact h
  · have e1 := sumCounts_take_succ l i hi
    have e2 := sumCounts_take_mono l (show i + 1 ≤ j by omega)
    omega

theorem backoff_fst_suffix {T : Type} (st : Stages T) :
    ∀ curr : List (OSym T), (backoff st curr).1 <:+ curr
  | [] => by simp [backoff]
  | c :: rest => by
    cases hst : st (c :: rest) with
    | some stats => simp [backoff, hst]
    | none =>
      by_cases h : rest.isEmpty
      · simp [backoff, hst, h]
      · have ih := backoff_fst_suffix st rest
        simp only [backoff, hst, h, Bool.false_eq_true, if_false]
        exact ih.trans (List.suffix_cons c rest)

theorem backoff_fst_ne_nil {T : Type} (st : Stages T) :
    ∀ curr : List (OSym T), curr ≠ [] → (backoff st curr).1 ≠ []
  | [], h => absurd rfl h
  | c :: rest, _ => by
    cases hst : st (c :: rest) with
    | some stats => simp [backoff, hst]
    | none =>
      by_cases h : rest.isEmpty
      · simp [backoff, hst, h]
      · have hr : rest ≠ [] := by
          intro he
          rw [he] at h
          simp at h
        have ih := backoff_fst_ne_nil st rest hr
        simpa only [backoff, hst, h, Bool.false_eq_true, if_false] using ih

theorem backoff_snd_none {T : Type} (st : Stages T) :
    ∀ curr : List (OSym T), curr ≠ [] → (backoff st curr).2 = none →
      (backoff st curr).1.length = 1 ∧ st (backoff st curr).1 = none
  | [], h, _ => absurd rfl h
  | c :: rest, _, h2 => by
    cases hst : st (c :: rest) with
    | some stats =>
      rw [backoff, hst] at h2
      simp at h2
    | none =>
      by_cases h : rest.isEmpty
      · have hr : rest = [] := by
          cases rest with
          | nil => rfl
          | cons a as => simp at h
        subst hr
        simp [backoff, hst]
      · have hr : rest ≠ [] := by
          intro he
          rw [he] at h
          simp at h
        have h2' : (backoff st rest).2 = none := by
          rw [backoff, hst, if_neg h] at h2
          exact h2
        have ih := backoff_snd_none st rest hr h2'
        simpa only [backoff, hst, h, Bool.false_eq_true, if_false] using ih

theorem backoffLookups_mem {T : Type} (st : Stages T) :
    ∀ (curr w : List (OSym T)), w ∈ backoffLookups st curr → w ≠ [] ∧ w <:+ curr
  | [], w, h => by simp [backoffLookups] at h
  | c :: rest, w, h => by
    cases hst : st (c :: rest) with
    | some stats =>
      rw [backoffLookups, hst] at h
      simp at h
      subst h
      exact ⟨List.cons_ne_nil c rest, List.suffix_refl _⟩
    | none =>
      by_cases hre : rest.isEmpty
      · rw [backoffLookups, hst, if_pos hre] at h
        simp at h
        subst h
        exact ⟨List.cons_ne_nil c rest, List.suffix_refl _⟩
      · rw [backoffLookups, hst, if_neg hre] at h
        rcases List.mem_cons.mp h with h' | h'
        · subst h'
          exact ⟨List.cons_ne_nil c rest, List.suffix_refl _⟩
        · have ih := backoffLookups_mem st rest w h'
          exact ⟨ih.1, ih.2.trans (List.suffix_cons c rest)⟩

theorem backoffLookups_length {T : Type} (st : Stages T) :
    ∀ curr : List (OSym T), (backoffLookups st curr).length ≤ curr.length
  | [] => by simp [backoffLookups]
  | c :: rest => by
    cases hst : st (c :: rest) with
    | some stats => simp [backoffLookups, hst]
    | none =>
      by_cases hre : rest.isEmpty
      · simp [backoffLookups, hst, hre]
      · have ih := backoffLookups_length st rest
        rw [backoffLookups, hst, if_neg hre]
        simpa using ih

theorem shrinkTo_eq_drop {K : Type} : ∀ (l : List K) (n : Nat),
    shrinkTo n l = l.drop (l.length - n)
  | [], n => by
    rw [shrinkTo]
    simp
  | c :: rest, n => by
    rw [shrinkTo]
    by_cases h : n < (c :: rest).length
    · rw [dif_pos h]
      have ih := shrinkTo_eq_drop rest n
      have e : (c :: rest).length - n = (rest.length - n) + 1 := by
        simp at h ⊢
        omega
      rw [e, List.drop_succ_cons, List.tail_cons, ih]
    · rw [dif_neg h]
      have e : (c :: rest).length - n = 0 := by
        simp at h ⊢
        omega
      rw [e, List.drop_zero]

theorem shrinkTo_length {K : Type} (l : List K) (n : Nat) :
    (shrinkTo n l).length = l.length - (l.length - n) := by
  rw [shrinkTo_eq_drop, List.length_drop]

theorem genWindows_bounds {T R : Type} [LinearOrder T] [Inhabited T] (g : RngF R)
    (st : Stages T) (alpha : Nat × BMap T) (maxlook : Nat) (hml : 1 ≤ maxlook) :
    ∀ (fuel : Nat) (curr : List (OSym T)) (rng : R),
      1 ≤ curr.length → curr.length ≤ maxlook →
      ∀ w ∈ genWindows g st alpha maxlook fuel curr rng,
        1 ≤ w.length ∧ w.length ≤ maxlook := by
  intro fuel
  induction fuel with
  | zero =>
    intro curr rng h1 h2 w hw
    simp [genWindows] at hw
  | succ n ih =>
    intro curr rng h1 h2 w hw
    have hcne : curr ≠ [] := by
      intro h
      rw [h] at h1
      simp at h1
    have hbne := backoff_fst_ne_nil st curr hcne
    have hbsuf := backoff_fst_suffix st curr
    have hblen : (backoff st curr).1.length ≤ curr.length := hbsuf.length_le
    have hbpos : 1 ≤ (backoff st curr).1.length := by
      cases hb : (backoff st curr).1 with
      | nil => exact absurd hb hbne
      | cons a as => simp
    have hnew : ∀ t : T,
        1 ≤ (shrinkTo maxlook ((backoff st curr).1 ++ [OSym.val t])).length
        ∧ (shrinkTo maxlook ((backoff st curr).1 ++ [OSym.val t])).length ≤ maxlook := by
      intro t
      rw [shrinkTo_length]
      simp only [List.length_append, List.length_cons, List.length_nil]
      omega
    rw [genWindows] at hw
    rcases hbk : backoff st curr with ⟨curr', found⟩
    rw [hbk] at hw hbne hbsuf hblen hbpos hnew
    cases found with
    | some stats =>
      simp only at hw
      cases hwc : weighted_choice g rng stats with
      | none =>
        rw [hwc] at hw
        simp at hw
        subst hw
        exact ⟨h1, h2⟩
      | some p =>
        rw [hwc] at hw
        obtain ⟨next, rng'⟩ := p
        cases next with
        | bot =>
          simp at hw
          subst hw
          exact ⟨h1, h2⟩
        | val t =>
          simp only at hw
          rcases List.mem_cons.mp hw with h' | h'
          · subst h'
            exact ⟨h1, h2⟩
          · exact ih _ _ (hnew t).1 (hnew t).2 w h'
    | none =>
      simp only at hw
      cases hwc : weighted_choice g rng alpha with
      | none =>
        rw [hwc] at hw
        simp at hw
        subst hw
        exact ⟨h1, h2⟩
      | some p =>
        rw [hwc] at hw
        obtain ⟨t, rng'⟩ := p
        simp only at hw
        rcases List.mem_cons.mp hw with h' | h'
        · subst h'
          exact ⟨h1, h2⟩
        · exact ih _ _ (hnew t).1 (hnew t).2 w h'

/-! ## Concrete instances used by scenario theorems and witnesses -/

/-- A deterministic random source always drawing 0. -/
def g0 : RngF Nat := fun _ r => (0, r)

/-- A deterministic random source always drawing 1 and advancing its state. -/
def g1 : RngF Nat := fun _ r => (1, r + 1)

/-- A freshly constructed chain with `size = 2` over `Nat` symbols. -/
def mcFresh2 : MarkovChain Nat Nat := ⟨2, 0, fun _ => none, (0, [])⟩

/-- A never-trained chain with `size = 1`. -/
def untrained : MarkovChain Nat Nat := ⟨1, 0, fun _ => none, (0, [])⟩

/-- `mcFresh2` after training the sequence `a b c` (encoded `0 1 2`). -/
def chainABC : MarkovChain Nat Nat := train mcFresh2 [0, 1, 2]

/-- A context table holding exactly the context `[val 1]`. -/
def st1 : Stages Nat :=
  fun key => if key = [OSym.val 1] then some (1, [(OSym.bot, 1)]) else none

/-- A two-entry distribution, total 3. -/
def dW : BMap (OSym Nat) := [(OSym.bot, 1), (OSym.val 0, 2)]

/-! ## Claims -/

/-- Claim C8: construction via `new_with_rng` fails (assertion `size > 0`)
exactly when `maxOrder = 0` — the if-and-only-if is stated for an arbitrary
`size2` with no success hypothesis — and for every `maxOrder ≥ 1` it
succeeds, yielding exactly the model with the requested size and random
source, an empty context table and an empty fallback table. -/
theorem new_spec {T R : Type} (size size2 : Nat) (rng : R) (hpos : 1 ≤ size) :
    ((new_with_rng size2 rng : Option (MarkovChain T R)) = none ↔ size2 = 0)
    ∧ new_with_rng size rng
        = some (⟨size, rng, Function.const (List (OSym T)) none, (0, [])⟩
            : MarkovChain T R) := by
  constructor
  · rw [new_with_rng]
    by_cases h : 0 < size2
    · rw [if_pos h]
      constructor
      · intro hc
        exact absurd hc (by simp)
      · intro hc
        omega
    · rw [if_neg h]
      constructor
      · intro _
        omega
      · intro _
        rfl
  · rw [new_with_rng, if_pos (by omega)]
    rfl

theorem new_spec_witness :
    ((new_with_rng 7 (0 : Nat) : Option (MarkovChain Nat Nat)) = none ↔ (7 : Nat) = 0)
    ∧ new_with_rng 2 (0 : Nat)
        = some (⟨2, 0, Function.const (List (OSym Nat)) none, (0, [])⟩
            : MarkovChain Nat Nat) :=
  new_spec 2 7 0 (by decide)

/-- Claim C9: `generate_max_look` fails its eager precondition assertion
exactly when the requested lookbehind lies outside `[1, maxOrder]`, and
`generate()` is exactly `generate_max_look(self.size)`. -/
theorem generate_max_look_spec {T R : Type} [LinearOrder T] [Inhabited T]
    (g : RngF R) (mc : MarkovChain T R) (m fuel : Nat) :
    (generate_max_look g mc m fuel = none ↔ ¬ (1 ≤ m ∧ m ≤ mc.size))
    ∧ generate g mc fuel = generate_max_look g mc mc.size fuel := by
  refine ⟨?_, rfl⟩
  rw [generate_max_look]
  by_cases h : 1 ≤ m ∧ m ≤ mc.size
  · simp [h]
  · simp [h]

/-- Claim C7: after training `a b c` (encoded `0 1 2`) on a freshly
constructed chain with `maxOrder = 2`, the context table has entries for
`[⟂]`, `[⟂,a]`, `[a]`, `[a,b]`, `[b]`, `[b,c]`, `[c]`; the entry at `[c]`
records the boundary marker as a following value; and there is no entry
for `[⟂,a,b]`, `[a,b,c]`, `[⟂,⟂]` or `[a,c]`. -/
theorem train_abc_scenario :
    new_with_rng 2 0 = some mcFresh2
    ∧ (chainABC.stages [OSym.bot]).isSome = true
    ∧ (chainABC.stages [OSym.bot, OSym.val 0]).isSome = true
    ∧ (chainABC.stages [OSym.val 0]).isSome = true
    ∧ (chainABC.stages [OSym.val 0, OSym.val 1]).isSome = true
    ∧ (chainABC.stages [OSym.val 1]).isSome = true
    ∧ (chainABC.stages [OSym.val 1, OSym.val 2]).isSome = true
    ∧ (chainABC.stages [OSym.val 2]).isSome = true
    ∧ 0 < countOf chainABC.stages [OSym.val 2] OSym.bot
    ∧ chainABC.stages [OSym.bot, OSym.val 0, OSym.val 1] = none
    ∧ chainABC.stages [OSym.val 0, OSym.val 1, OSym.val 2] = none
    ∧ chainABC.stages [OSym.bot, OSym.bot] = none
    ∧ chainABC.stages [OSym.val 0, OSym.val 2] = none := by
  refine ⟨rfl, ?_, ?_, ?_, ?_, ?_, ?_, ?_, ?_, ?_, ?_, ?_, ?_⟩ <;> decide

/-- Claim C5: two identically configured models (same `maxOrder`, equal
table states and equal random-source state), trained on the same sequences
in the same order, produce equal outputs over any number of successive
`generate` calls. -/
theorem generation_deterministic {T R : Type} [LinearOrder T] [Inhabited T]
    (g : RngF R) (m₁ m₂ : MarkovChain T R) (terms : List (List T)) (fuel n : Nat)
    (hs : m₁.size = m₂.size) (hst : m₁.stages = m₂.stages)
    (ha : m₁.alphabet = m₂.alphabet) (hr : m₁.rng = m₂.rng) :
    genCalls g (terms.foldl train m₁) fuel n
      = genCalls g (terms.foldl train m₂) fuel n := by
  have he : m₁ = m₂ := by
    cases m₁
    cases m₂
    simp_all
  rw [he]

theorem generation_deterministic_witness :
    mcFresh2.size = mcFresh2.size ∧ mcFresh2.stages = mcFresh2.stages
    ∧ mcFresh2.alphabet = mcFresh2.alphabet ∧ mcFresh2.rng = mcFresh2.rng
    ∧ genCalls g0 (([[0, 1]] : List (List Nat)).foldl train mcFresh2) 3 2
        = genCalls g0 (([[0, 1]] : List (List Nat)).foldl train mcFresh2) 3 2 :=
  ⟨rfl, rfl, rfl, rfl,
    generation_deterministic g0 mcFresh2 mcFresh2 [[0, 1]] 3 2 rfl rfl rfl rfl⟩

/-- Counterexample to claim C6: generating from a freshly constructed,
never-trained model does not return a named error or an empty sequence —
the assertion passes, the empty fallback table is reached, and
`weighted_choice` is invoked on the zero-total distribution, where
`gen_range(0, 0)` panics (modelled by `GenResult.panicked`). -/
theorem untrained_generate_counterexample :
    generate g0 untrained 1 = some (GenResult.panicked, 0)
    ∧ GenResult.panicked ≠ GenResult.ok ([] : List Nat) := by
  refine ⟨?_, ?_⟩ <;> decide

/-- Claim C6 (amended): calling `generate` on a never-trained model reaches
weighted sampling on the zero-total fallback distribution and panics there
(`gen_range(0, 0)`); it neither raises a dedicated `ModelUntrained`-style
error nor returns an empty sequence. -/
theorem untrained_generate_panics {T R : Type} [LinearOrder T] [Inhabited T]
    (g : RngF R) (size : Nat) (rng : R) (mc : MarkovChain T R) (fuel : Nat)
    (hnew : new_with_rng size rng = some mc) (hfuel : 1 ≤ fuel) :
    generate g mc fuel = some (GenResult.panicked, mc.rng) := by
  rw [new_with_rng] at hnew
  by_cases h : 0 < size
  · rw [if_pos h] at hnew
    injection hnew with h2
    subst h2
    obtain ⟨f, rfl⟩ : ∃ f, fuel = f + 1 := ⟨fuel - 1, by omega⟩
    simp only [generate, generate_max_look]
    have hc : 1 ≤ size ∧ size ≤ size := ⟨by omega, le_refl size⟩
    rw [if_pos hc]
    rfl
  · rw [if_neg h] at hnew
    simp at hnew

theorem untrained_generate_panics_witness :
    new_with_rng 1 (0 : Nat) = some untrained ∧ 1 ≤ 1
    ∧ generate g0 untrained 1 = some (GenResult.panicked, untrained.rng) :=
  ⟨rfl, le_refl 1, untrained_generate_panics g0 1 0 untrained 1 rfl (le_refl 1)⟩

/-- Claim C2: during generation, a window that is absent from the context
table and has more than one element is retried after dropping its first
element; a backoff that finds nothing ends on a single-element window that
is itself absent — only then is the unigram fallback consulted; and when
the two-element context `[x, y]` was never trained but `[y]` was,
generation from the window `[x, y]` proceeds exactly as from `[y]`,
sampling from `[y]`'s distribution and not from the global fallback. -/
theorem generation_backoff {T R : Type} [LinearOrder T] [Inhabited T]
    (g : RngF R) (st : Stages T) (alpha : Nat × BMap T)
    (x y z : OSym T) (d : Nat × BMap (OSym T))
    (curr curr2 : List (OSym T)) (ml fuel : Nat) (res : List T) (rng : R)
    (hcurr : st curr = none) (hlen : 1 < curr.length)
    (hz : st [z] = none)
    (hc2 : curr2 ≠ []) (hc2n : (backoff st curr2).2 = none)
    (hxy : st [x, y] = none) (hy : st [y] = some d) :
    backoff st curr = backoff st curr.tail
    ∧ backoff st [z] = ([z], none)
    ∧ ((backoff st curr2).1.length = 1 ∧ st (backoff st curr2).1 = none)
    ∧ backoff st [x, y] = ([y], some d)
    ∧ genLoop g st alpha ml (fuel + 1) [x, y] res rng
        = genLoop g st alpha ml (fuel + 1) [y] res rng := by
  have hb5 : backoff st [y] = ([y], some d) := by
    rw [backoff, hy]
  have hb4 : backoff st [x, y] = ([y], some d) := by
    rw [backoff, hxy]
    simpa using hb5
  refine ⟨?_, ?_, backoff_snd_none st curr2 hc2 hc2n, hb4, ?_⟩
  · cases curr with
    | nil => simp at hlen
    | cons a rest =>
      cases rest with
      | nil => simp at hlen
      | cons b rest2 =>
        rw [backoff, hcurr]
        simp
  · rw [backoff, hz]
    rfl
  · rw [genLoop, genLoop, hb4, hb5]

theorem generation_backoff_witness :
    backoff st1 [OSym.val 0, OSym.val 1] = backoff st1 ([OSym.val 0, OSym.val 1].tail)
    ∧ backoff st1 [OSym.bot] = ([OSym.bot], none)
    ∧ ((backoff st1 [OSym.bot]).1.length = 1 ∧ st1 (backoff st1 [OSym.bot]).1 = none)
    ∧ backoff st1 [OSym.val 0, OSym.val 1] = ([OSym.val 1], some (1, [(OSym.bot, 1)]))
    ∧ genLoop g0 st1 (0, []) 1 (0 + 1) [OSym.val 0, OSym.val 1] [] 0
        = genLoop g0 st1 (0, []) 1 (0 + 1) [OSym.val 1] [] 0 :=
  generation_backoff g0 st1 (0, []) (OSym.val 0) (OSym.val 1) OSym.bot
    (1, [(OSym.bot, 1)]) [OSym.val 0, OSym.val 1] [OSym.bot] 1 0 [] 0
    (by decide) (by decide) (by decide) (by decide) (by decide) (by decide) (by decide)

/-- Claim C1: recording an occurrence of `next` after a context during
training also records `next` under every nonempty tail-suffix of that
context — each such suffix entry gains exactly one on its total and on its
count for `next` — and consequently, at a fixed position `idx` of the
augmented sequence, the context slice of length `k` receives exactly
`min size idx - k + 1` total increments from the order loop: one from the
`len = k` iteration plus one from every iteration with `len > k` whose
suffix walk reaches the same `k`-length slice, so shorter contexts
accumulate counts with higher multiplicity than a single pass would give. -/
theorem training_suffix_multiplicity {T : Type} [LinearOrder T]
    (st st2 : Stages T) (aug s c : List (OSym T)) (next : OSym T)
    (size idx k : Nat)
    (hk : 1 ≤ k) (hki : k ≤ idx) (hks : k ≤ size) (hidx : idx < aug.length) :
    totalOf (record_occurance st2 s next) c
        = totalOf st2 c + (if c ≠ [] ∧ c <:+ s then 1 else 0)
    ∧ countOf (record_occurance st2 s next) c next
        = countOf st2 c next + (if c ≠ [] ∧ c <:+ s then 1 else 0)
    ∧ totalOf (posLoop st aug size idx) ((aug.drop (idx - k)).take k)
        = totalOf st ((aug.drop (idx - k)).take k) + (min size idx - k + 1) := by
  refine ⟨record_totalOf s st2 c next, record_countOf s st2 c next, ?_⟩
  rw [posLoop_totalOf st aug idx k hk hki hidx size, if_pos (by omega)]

theorem training_suffix_multiplicity_witness :
    1 ≤ 1 ∧ 1 ≤ 2 ∧ 1 ≤ 2 ∧ 2 < ([OSym.bot, OSym.val 0, OSym.bot] : List (OSym Nat)).length
    ∧ (totalOf (record_occurance st1 [OSym.val 0] OSym.bot) [OSym.val 0]
        = totalOf st1 [OSym.val 0]
          + (if [OSym.val 0] ≠ ([] : List (OSym Nat)) ∧ [OSym.val 0] <:+ [OSym.val 0] then 1 else 0)
      ∧ countOf (record_occurance st1 [OSym.val 0] OSym.bot) [OSym.val 0] OSym.bot
        = countOf st1 [OSym.val 0] OSym.bot
          + (if [OSym.val 0] ≠ ([] : List (OSym Nat)) ∧ [OSym.val 0] <:+ [OSym.val 0] then 1 else 0)
      ∧ totalOf (posLoop st1 [OSym.bot, OSym.val 0, OSym.bot] 2 2)
            (([OSym.bot, OSym.val 0, OSym.bot].drop (2 - 1)).take 1)
        = totalOf st1 (([OSym.bot, OSym.val 0, OSym.bot].drop (2 - 1)).take 1)
          + (min 2 2 - 1 + 1)) :=
  ⟨by decide, by decide, by decide, by decide,
    training_suffix_multiplicity st1 st1 [OSym.bot, OSym.val 0, OSym.bot]
      [OSym.val 0] [OSym.val 0] OSym.bot 2 2 1
      (by decide) (by decide) (by decide) (by decide)⟩

/-- The selection property of `weighted_choice` on a distribution
`(total, l)`: the call returns the key of the unique entry whose cumulative
interval contains the drawn number, together with the advanced random
state. -/
def wcSpec {T R : Type} [LinearOrder T] (g : RngF R) (rng : R) (total : Nat)
    (l : BMap (OSym T)) : Prop :=
  ∃ i, ∃ hi : i < l.length,
    weighted_choice g rng (total, l) = some (l[i].1, (g total rng).2)
    ∧ sumCounts (l.take i) ≤ (g total rng).1
    ∧ (g total rng).1 < sumCounts (l.take i) + l[i].2
    ∧ ∀ j, ∀ hj : j < l.length,
        sumCounts (l.take j) ≤ (g total rng).1 →
        (g total rng).1 < sumCounts (l.take j) + l[j].2 → j = i

/-- Claim C3: weighted sampling over a distribution whose per-key counts
sum to a positive `total`, with the drawn number in `[0, total)`, visits
the entries in ascending key order (the map is sorted by `oLt`, under which
the boundary marker precedes every real symbol, witnessed by the last
conjunct) and returns the first — indeed unique — key whose cumulative
interval `[cum_before, cum_before + count)` contains the draw; and when no
entry's interval contains the draw (it is at least the sum of the counts),
the scan returns the last key in iteration order. -/
theorem weighted_choice_spec {T R : Type} [LinearOrder T] (g : RngF R) (rng : R)
    (total : Nat) (l lastl : BMap (OSym T)) (r' : Nat) (t0 : T)
    (hlast : lastl ≠ [])
    (hsum : sumCounts l = total) (h0 : 0 < total) (hr : (g total rng).1 < total)
    (hsorted : l.Pairwise (fun a b => oLt a.1 b.1 = true))
    (hr' : sumCounts lastl ≤ r') :
    wcSpec g rng total l
    ∧ wcGo r' 0 default lastl = (lastl.getLast hlast).1
    ∧ oLt OSym.bot (OSym.val t0) = true := by
  refine ⟨?_, ?_, rfl⟩
  · obtain ⟨i, hi, heq, hlo, hhi⟩ :=
      wcGo_spec l ((g total rng).1) 0 default (Nat.zero_le _) (by omega)
    refine ⟨i, hi, ?_, by omega, by omega, ?_⟩
    · rw [weighted_choice, if_neg (by simpa using by omega : ¬ (total, l).1 = 0)]
      simp only
      rw [heq]
    · intro j hj hjlo hjhi
      exact wc_unique l ((g total rng).1) i j hi hj (by omega) (by omega) hjlo hjhi
  · exact wcGo_last lastl r' 0 default hlast (by omega)

theorem weighted_choice_spec_witness :
    wcSpec g1 0 3 dW
    ∧ wcGo 5 0 default dW = (dW.getLast (by decide)).1
    ∧ oLt OSym.bot (OSym.val 7) = true :=
  weighted_choice_spec g1 0 3 dW dW 5 7 (by decide) (by decide) (by decide)
    (by decide) (by decide) (by decide)

/-- The sum invariant: in every entry of the context table the stored total
equals the sum of the per-key counts. -/
def stInv {T : Type} (st : Stages T) : Prop :=
  ∀ key e, st key = some e → e.1 = sumCounts e.2

/-- The sum invariant for the whole model: every context-table entry and
the unigram fallback table have totals equal to the sums of their per-key
counts. -/
def sumInv {T R : Type} (mc : MarkovChain T R) : Prop :=
  stInv mc.stages ∧ mc.alphabet.1 = sumCounts mc.alphabet.2

theorem stInv_bumpStage {T : Type} [LinearOrder T] (st : Stages T)
    (key : List (OSym T)) (next : OSym T) (h : stInv st) :
    stInv (bumpStage st key next) := by
  intro k e he
  simp only [bumpStage, Function.update_apply] at he
  by_cases hk : k = key
  · rw [if_pos hk] at he
    injection he with he2
    subst he2
    have h0 : ((st key).getD (0, [])).1 = sumCounts ((st key).getD (0, [])).2 := by
      cases hs : st key with
      | none => simp [sumCounts]
      | some e0 => simpa using h key e0 hs
    rw [sumCounts_bump]
    simpa using h0
  · rw [if_neg hk] at he
    exact h k e he

theorem stInv_record {T : Type} [LinearOrder T] :
    ∀ (s : List (OSym T)) (st : Stages T) (next : OSym T),
      stInv st → stInv (record_occurance st s next)
  | [], st, next, h => h
  | k :: rest, st, next, h => by
    rw [record_occurance]
    exact stInv_record rest _ next (stInv_bumpStage st (k :: rest) next h)

theorem sumCounts_foldl_bump {T : Type} [LinearOrder T] :
    ∀ (term : List T) (m : BMap T),
      sumCounts (term.foldl (fun m t => bump tLt t m) m) = sumCounts m + term.length
  | [], m => by simp
  | t :: ts, m => by
    rw [List.foldl_cons, sumCounts_foldl_bump ts (bump tLt t m), sumCounts_bump]
    simp only [List.length_cons]
    omega

theorem sumInv_train {T R : Type} [LinearOrder T] (mc : MarkovChain T R)
    (term : List T) (h : sumInv mc) : sumInv (train mc term) := by
  refine ⟨?_, ?_⟩
  · show stInv (train mc term).stages
    simp only [train]
    apply foldl_preserve stInv
    · intro st idx hst
      rw [posLoop]
      apply foldl_preserve stInv
      · intro st2 len hst2
        by_cases hle : len ≤ idx
        · rw [if_pos hle]
          exact stInv_record _ st2 _ hst2
        · rw [if_neg hle]
          exact hst2
      · exact hst
    · exact h.1
  · show (train mc term).alphabet.1 = sumCounts (train mc term).alphabet.2
    simp only [train]
    rw [sumCounts_foldl_bump]
    have := h.2
    omega

/-- Claim C4: after every `train` call (any sequence of them, starting from
a freshly constructed model), every entry of the context table and the
unigram fallback table store a total that exactly equals the sum of the
per-key occurrence counts of the inner mapping. -/
theorem sum_invariant {T R : Type} [LinearOrder T] (size : Nat) (rng : R)
    (mc : MarkovChain T R) (terms : List (List T))
    (hnew : new_with_rng size rng = some mc) :
    sumInv (terms.foldl train mc) := by
  have h0 : sumInv mc := by
    rw [new_with_rng] at hnew
    by_cases h : 0 < size
    · rw [if_pos h] at hnew
      injection hnew with h2
      subst h2
      exact ⟨fun key e he => by simp at he, by simp [sumCounts]⟩
    · rw [if_neg h] at hnew
      simp at hnew
  exact foldl_preserve sumInv train (fun a b ha => sumInv_train a b ha) terms mc h0

theorem sum_invariant_witness :
    sumInv (([[0, 1], [1, 1, 2]] : List (List Nat)).foldl train mcFresh2) :=
  sum_invariant 2 0 mcFresh2 [[0, 1], [1, 1, 2]] rfl

/-- The lookup invariant of a generation run: every window handed to the
backoff loop has length in `[1, maxlook]`; every context-table lookup made
by the backoff loop is on a nonempty window of length at most `maxlook`;
the backoff loop performs at most window-length lookups; and a backoff that
finds nothing ends on a single-element window. -/
def lookupInv {T R : Type} [LinearOrder T] [Inhabited T] (g : RngF R)
    (mc : MarkovChain T R) (maxlook fuel : Nat) (rng : R) : Prop :=
  ∀ w ∈ genWindows g mc.stages mc.alphabet maxlook fuel [OSym.bot] rng,
    (1 ≤ w.length ∧ w.length ≤ maxlook)
    ∧ (∀ l ∈ backoffLookups mc.stages w, 1 ≤ l.length ∧ l.length ≤ maxlook)
    ∧ (backoffLookups mc.stages w).length ≤ w.length
    ∧ ((backoff mc.stages w).2 = none → (backoff mc.stages w).1.length = 1)

/-- Claim C10: throughout any `generate_max_look` run with
`1 ≤ max_lookbehind ≤ maxOrder`, every context-table lookup is on a window
of length between 1 and `max_lookbehind`; the backoff branch only drops the
first element of windows with more than one element, so windows never
become empty; and the inner backoff loop does at most window-length lookups
and ends either having found a context or in the single-element fallback
branch. -/
theorem generation_lookup_invariant {T R : Type} [LinearOrder T] [Inhabited T]
    (g : RngF R) (mc : MarkovChain T R) (maxlook fuel : Nat) (rng : R)
    (h1 : 1 ≤ maxlook) (h2 : maxlook ≤ mc.size) :
    lookupInv g mc maxlook fuel rng := by
  intro w hw
  have hb := genWindows_bounds g mc.stages mc.alphabet maxlook h1 fuel [OSym.bot]
    rng (by simp) (by simpa using h1) w hw
  have hwne : w ≠ [] := by
    intro he
    rw [he] at hb
    simp at hb
  refine ⟨hb, ?_, backoffLookups_length mc.stages w, ?_⟩
  · intro l hl
    have hm := backoffLookups_mem mc.stages w l hl
    have hle : l.length ≤ w.length := hm.2.length_le
    have hpos : 0 < l.length := List.length_pos.mpr hm.1
    exact ⟨hpos, le_trans hle hb.2⟩
  · intro hnone
    exact (backoff_snd_none mc.stages w hwne hnone).1

theorem generation_lookup_invariant_witness :
    lookupInv g0 untrained 1 2 0 :=
  generation_lookup_invariant g0 untrained 1 2 0 (le_refl 1) (le_refl 1)

end Warkov
